import Mathlib

set_option autoImplicit false
set_option maxRecDepth 10000

/-!
Verification of the real-time audio capture / gating / transcription core of
the Alter repository (`backend/audio/capture.py`, `backend/transcription/vad.py`,
`backend/transcription/engine.py`, `backend/session/manager.py`).

Samples (32-bit floats in the source) are embedded as rationals; numpy array
operations on them are embedded as the corresponding exact list operations.
-/

namespace Alter

/-! ## Resampler / Chunker (`AudioCapture._read_stream`, `AudioCapture._dummy_stream`)

The carry-over loop of `_read_stream` is

    buffer = np.concatenate([buffer, audio])
    while len(buffer) >= target_chunk_samples:
        chunk_data = buffer[:target_chunk_samples]
        buffer = buffer[target_chunk_samples:]
        self.audio_queue.put(AudioChunk(...))

`emitChunksAux` runs that `while` loop with explicit fuel; `buffer.length` fuel
always suffices because each iteration removes `chunkSize ≥ 1` samples.
-/

/-- The `while len(buffer) >= target_chunk_samples` loop of `_read_stream`,
with explicit fuel bounding the number of iterations.  Returns the emitted
chunks (in emission order) and the remaining carry-over buffer. -/
def emitChunksAux {α : Type} (chunkSize : ℕ) : ℕ → List α → List (List α) × List α
  | 0, buffer => ([], buffer)
  | fuel + 1, buffer =>
    if 0 < chunkSize ∧ chunkSize ≤ buffer.length then
      let r := emitChunksAux chunkSize fuel (buffer.drop chunkSize)
      (buffer.take chunkSize :: r.1, r.2)
    else
      ([], buffer)

/-- Drain full chunks from the carry-over buffer, as the `while` loop of
`_read_stream` does. -/
def emitChunks {α : Type} (chunkSize : ℕ) (buffer : List α) : List (List α) × List α :=
  emitChunksAux chunkSize buffer.length buffer

/-- One pass of the `_read_stream` body on one freshly read block: append the
block to the carry-over buffer, then drain full chunks.  The state is
`(chunks emitted so far, carry-over buffer)`. -/
def feedBlock {α : Type} (chunkSize : ℕ) (st : List (List α) × List α) (block : List α) :
    List (List α) × List α :=
  let r := emitChunks chunkSize (st.2 ++ block)
  (st.1 ++ r.1, r.2)

/-- Run the `_read_stream` loop over a whole sequence of input blocks, starting
from the empty carry-over buffer (`buffer = np.array([])`). -/
def runChunker {α : Type} (chunkSize : ℕ) (blocks : List (List α)) :
    List (List α) × List α :=
  blocks.foldl (feedBlock chunkSize) ([], [])

/-- The all-zero chunk emitted by `AudioCapture._dummy_stream`
(`np.zeros(self.chunk_size, dtype=np.float32)`). -/
def dummyChunkData (chunkSize : ℕ) : List ℚ :=
  List.replicate chunkSize 0

theorem emitChunksAux_join {α : Type} (chunkSize : ℕ) :
    ∀ (fuel : ℕ) (buffer : List α),
      (emitChunksAux chunkSize fuel buffer).1.flatten ++ (emitChunksAux chunkSize fuel buffer).2
        = buffer := by
  intro fuel
  induction fuel with
  | zero => intro buffer; simp [emitChunksAux]
  | succ n ih =>
    intro buffer
    by_cases h : 0 < chunkSize ∧ chunkSize ≤ buffer.length
    · simp only [emitChunksAux, if_pos h, List.flatten_cons, List.append_assoc]
      rw [ih (buffer.drop chunkSize)]
      exact List.take_append_drop chunkSize buffer
    · simp [emitChunksAux, if_neg h]

theorem emitChunksAux_sizes {α : Type} (chunkSize : ℕ) :
    ∀ (fuel : ℕ) (buffer : List α),
      ∀ c ∈ (emitChunksAux chunkSize fuel buffer).1, c.length = chunkSize := by
  intro fuel
  induction fuel with
  | zero => intro buffer c hc; simp [emitChunksAux] at hc
  | succ n ih =>
    intro buffer c hc
    by_cases h : 0 < chunkSize ∧ chunkSize ≤ buffer.length
    · simp only [emitChunksAux, if_pos h, List.mem_cons] at hc
      rcases hc with hc | hc
      · subst hc; exact List.length_take_of_le h.2
      · exact ih (buffer.drop chunkSize) c hc
    · simp [emitChunksAux, if_neg h] at hc

theorem emitChunksAux_rest {α : Type} (chunkSize : ℕ) (hk : 0 < chunkSize) :
    ∀ (fuel : ℕ) (buffer : List α), buffer.length ≤ fuel →
      (emitChunksAux chunkSize fuel buffer).2.length < chunkSize := by
  intro fuel
  induction fuel with
  | zero =>
    intro buffer hb
    have : buffer.length = 0 := Nat.le_zero.mp hb
    simp [emitChunksAux, this]
    omega
  | succ n ih =>
    intro buffer hb
    by_cases h : 0 < chunkSize ∧ chunkSize ≤ buffer.length
    · simp only [emitChunksAux, if_pos h]
      exact ih (buffer.drop chunkSize) (by simp [List.length_drop]; omega)
    · simp only [emitChunksAux, if_neg h]
      omega

theorem emitChunks_join {α : Type} (chunkSize : ℕ) (buffer : List α) :
    (emitChunks chunkSize buffer).1.flatten ++ (emitChunks chunkSize buffer).2 = buffer :=
  emitChunksAux_join chunkSize buffer.length buffer

theorem emitChunks_sizes {α : Type} (chunkSize : ℕ) (buffer : List α) :
    ∀ c ∈ (emitChunks chunkSize buffer).1, c.length = chunkSize :=
  emitChunksAux_sizes chunkSize buffer.length buffer

theorem emitChunks_rest {α : Type} (chunkSize : ℕ) (hk : 0 < chunkSize) (buffer : List α) :
    (emitChunks chunkSize buffer).2.length < chunkSize :=
  emitChunksAux_rest chunkSize hk buffer.length buffer le_rfl

/-- Invariant preservation along a `foldl`. -/
theorem foldl_invariant {α β : Type} (P : β → Prop) (f : β → α → β)
    (hstep : ∀ b a, P b → P (f b a)) :
    ∀ (l : List α) (init : β), P init → P (l.foldl f init) := by
  intro l
  induction l with
  | nil => intro init h; exact h
  | cons a l ih => intro init h; exact ih (f init a) (hstep init a h)

theorem runChunker_sizes {α : Type} (chunkSize : ℕ) (hk : 0 < chunkSize)
    (blocks : List (List α)) :
    (∀ c ∈ (runChunker chunkSize blocks).1, c.length = chunkSize) ∧
      (runChunker chunkSize blocks).2.length < chunkSize := by
  refine foldl_invariant
    (fun st => (∀ c ∈ st.1, c.length = chunkSize) ∧ st.2.length < chunkSize)
    (feedBlock chunkSize) ?_ blocks ([], []) ?_
  · rintro ⟨acc, buf⟩ block ⟨hacc, _⟩
    constructor
    · intro c hc
      simp only [feedBlock, List.mem_append] at hc
      rcases hc with hc | hc
      · exact hacc c hc
      · exact emitChunks_sizes chunkSize (buf ++ block) c hc
    · exact emitChunks_rest chunkSize hk (buf ++ block)
  · exact ⟨by intro c hc; simp at hc, by simpa using hk⟩

theorem runChunker_foldl_join {α : Type} (chunkSize : ℕ) :
    ∀ (blocks : List (List α)) (st : List (List α) × List α),
      (blocks.foldl (feedBlock chunkSize) st).1.flatten ++ (blocks.foldl (feedBlock chunkSize) st).2
        = st.1.flatten ++ st.2 ++ blocks.flatten := by
  intro blocks
  induction blocks with
  | nil => intro st; simp
  | cons b bs ih =>
    intro st
    simp only [List.foldl_cons, List.flatten, ih (feedBlock chunkSize st b)]
    simp only [feedBlock, List.flatten_append, List.append_assoc]
    rw [← List.append_assoc (emitChunks chunkSize (st.2 ++ b)).1.flatten,
      emitChunks_join chunkSize (st.2 ++ b)]
    simp [List.append_assoc]

theorem runChunker_join {α : Type} (chunkSize : ℕ) (blocks : List (List α)) :
    (runChunker chunkSize blocks).1.flatten ++ (runChunker chunkSize blocks).2 = blocks.flatten := by
  have h := runChunker_foldl_join chunkSize blocks ([], [])
  simpa using h

/-- Claim C5: every chunk emitted by the capture carry-over loop has exactly
`chunk_size = sample_rate * chunk_duration` samples, a partial window (the
carry-over buffer) always holds fewer samples than one chunk and is never
emitted, and the dummy stream likewise emits exactly `chunk_size` all-zero
samples per chunk. -/
theorem capture_chunks_have_exact_length {α : Type} (chunkSize : ℕ) (hk : 0 < chunkSize)
    (blocks : List (List α)) :
    (∀ c ∈ (runChunker chunkSize blocks).1, c.length = chunkSize) ∧
      (runChunker chunkSize blocks).2.length < chunkSize ∧
      (dummyChunkData chunkSize).length = chunkSize := by
  obtain ⟨h1, h2⟩ := runChunker_sizes chunkSize hk blocks
  exact ⟨h1, h2, List.length_replicate chunkSize 0⟩

/-- Witness for C5 at a concrete input. -/
theorem capture_chunks_have_exact_length_witness :
    (∀ c ∈ (runChunker 2 [[(1 : ℚ), 2, 3], [4]]).1, c.length = 2) ∧
      (runChunker 2 [[(1 : ℚ), 2, 3], [4]]).2.length < 2 ∧
      (dummyChunkData 2).length = 2 :=
  capture_chunks_have_exact_length 2 (by decide) [[(1 : ℚ), 2, 3], [4]]

/-- Claim C6: chunking is lossless and ordered — the concatenation of all
emitted chunks is a prefix of the concatenated input blocks, and when the
total input length is a multiple of the chunk size the concatenation equals
the input exactly. -/
theorem capture_chunking_lossless {α : Type} (chunkSize : ℕ) (hk : 0 < chunkSize)
    (blocks : List (List α)) :
    (runChunker chunkSize blocks).1.flatten <+: blocks.flatten ∧
      (blocks.flatten.length % chunkSize = 0 →
        (runChunker chunkSize blocks).1.flatten = blocks.flatten) := by
  have hjoin := runChunker_join chunkSize blocks
  constructor
  · exact ⟨(runChunker chunkSize blocks).2, hjoin⟩
  · intro hmul
    have hsizes := (runChunker_sizes chunkSize hk blocks).1
    have hrest := (runChunker_sizes chunkSize hk blocks).2
    have hdvd : (runChunker chunkSize blocks).1.flatten.length % chunkSize = 0 := by
      have : ∀ cs : List (List α), (∀ c ∈ cs, c.length = chunkSize) →
          cs.flatten.length % chunkSize = 0 := by
        intro cs
        induction cs with
        | nil => intro _; simp
        | cons c cs ih =>
          intro h
          have hc := h c (List.mem_cons_self c cs)
          have hcs := ih (fun x hx => h x (List.mem_cons_of_mem c hx))
          rw [List.flatten_cons, List.length_append, hc, Nat.add_mod_left]
          exact hcs
      exact this _ hsizes
    have hlen : (runChunker chunkSize blocks).1.flatten.length
        + (runChunker chunkSize blocks).2.length = blocks.flatten.length := by
      have := congrArg List.length hjoin
      simpa [List.length_append] using this
    have hrestmod : (runChunker chunkSize blocks).2.length % chunkSize = 0 := by
      have h1 : ((runChunker chunkSize blocks).1.flatten.length
          + (runChunker chunkSize blocks).2.length) % chunkSize = 0 := by
        rw [hlen]; exact hmul
      rw [Nat.add_mod, hdvd, Nat.zero_add, Nat.mod_mod_of_dvd _ (dvd_refl chunkSize)] at h1
      exact h1
    have hrest0 : (runChunker chunkSize blocks).2.length = 0 := by
      rwa [Nat.mod_eq_of_lt hrest] at hrestmod
    have : (runChunker chunkSize blocks).2 = [] := List.eq_nil_of_length_eq_zero hrest0
    rw [← hjoin, this, List.append_nil]

/-- Witness for C6 at a concrete input. -/
theorem capture_chunking_lossless_witness :
    (runChunker 2 [[(1 : ℚ), 2, 3], [4]]).1.flatten <+: [(1 : ℚ), 2, 3, 4] ∧
      ([(1 : ℚ), 2, 3, 4].length % 2 = 0 → (runChunker 2 [[(1 : ℚ), 2, 3], [4]]).1.flatten
        = [(1 : ℚ), 2, 3, 4]) := by
  have h := capture_chunking_lossless 2 (by decide) [[(1 : ℚ), 2, 3], [4]]
  simpa using h

/-! ## Resampling (`AudioCapture._read_stream`, lines 172-177)

    if native_rate != self.sample_rate:
        ratio = self.sample_rate / native_rate
        new_length = int(len(audio) * ratio)
        indices = np.linspace(0, len(audio) - 1, new_length)
        audio = np.interp(indices, np.arange(len(audio)), audio).astype(np.float32)

`int()` on a non-negative float truncates, i.e. takes the floor; with exact
rational arithmetic `new_length = ⌊n * target / native⌋`, embedded below as
natural-number division.  (The float product sits strictly between the two
neighbouring integers at every input considered here, so exact floor agrees
with the float computation.)
-/

/-- The evaluated index positions of `np.linspace(start, stop, num)`: `num`
evenly spaced points from `start` to `stop` inclusive. -/
def linspace (start stop : ℚ) (num : ℕ) : List ℚ :=
  match num with
  | 0 => []
  | 1 => [start]
  | n + 2 =>
    (List.range (n + 2)).map fun j : ℕ => start + (stop - start) * (j : ℚ) / ((n : ℚ) + 1)

/-- Linear interpolation of `np.interp` at one position `x`, with sample points
`0, 1, ..., a.length - 1` and values `a`.  All positions used by the resampler
lie inside `[0, a.length - 1]`. -/
def interpAt (a : List ℚ) (x : ℚ) : ℚ :=
  let k : ℕ := (⌊x⌋).toNat
  match a.get? k, a.get? (k + 1) with
  | some y0, some y1 => y0 + (x - k) * (y1 - y0)
  | some y0, none => y0
  | none, _ => 0

/-- The resampling step of `_read_stream`: when the native rate differs from
the target rate, evaluate `new_length = int(n * target / native)` index
positions with `linspace` and linearly interpolate the input at them. -/
def resample (audio : List ℚ) (nativeRate targetRate : ℕ) : List ℚ :=
  if nativeRate = targetRate then audio
  else
    (linspace 0 ((audio.length : ℚ) - 1) (audio.length * targetRate / nativeRate)).map
      (interpAt audio)

theorem linspace_length (start stop : ℚ) (num : ℕ) : (linspace start stop num).length = num := by
  match num with
  | 0 => rfl
  | 1 => rfl
  | n + 2 =>
    simp only [linspace, List.length_map, List.length_range]

/-- Claim C2, counterexample: the spec says the resampled block length is
`round(n * target_rate / native_rate)`, but the code computes
`int(n * target_rate / native_rate)`, which truncates.  For an 11-sample block
at native rate 44100 resampled to 16000, `11 * 16000 / 44100 = 3.99…`: the code
produces 3 samples while the spec rounds to 4. -/
theorem resample_length_counterexample :
    (resample (List.replicate 11 1) 44100 16000).length = 3 ∧
      round ((11 * 16000 : ℚ) / 44100) = 4 ∧ (3 : ℕ) ≠ 4 := by
  refine ⟨rfl, ?_, by decide⟩
  norm_num [round_eq]

/-- Claim C2, amended: for `native_rate ≠ target_rate` the resampling step
produces exactly `⌊n * target_rate / native_rate⌋` samples (truncation, not
rounding), obtained by linear interpolation at the positions
`linspace(0, n - 1, that length)`; the output is a deterministic function of
the input block (the embedding is a pure function). -/
theorem resample_length_and_shape (audio : List ℚ) (nativeRate targetRate : ℕ)
    (h : nativeRate ≠ targetRate) :
    (resample audio nativeRate targetRate).length = audio.length * targetRate / nativeRate ∧
      resample audio nativeRate targetRate
        = (linspace 0 ((audio.length : ℚ) - 1) (audio.length * targetRate / nativeRate)).map
            (interpAt audio) := by
  constructor
  · simp [resample, if_neg h, linspace_length]
  · simp [resample, if_neg h]

/-- Witness for the amended C2 at a concrete input. -/
theorem resample_length_and_shape_witness :
    (resample [(0 : ℚ), 2, 4, 6, 8, 10] 48000 16000).length = 2 ∧
      resample [(0 : ℚ), 2, 4, 6, 8, 10] 48000 16000
        = (linspace 0 ((([(0 : ℚ), 2, 4, 6, 8, 10] : List ℚ).length : ℚ) - 1) 2).map
            (interpAt [(0 : ℚ), 2, 4, 6, 8, 10]) := by
  have h := resample_length_and_shape [(0 : ℚ), 2, 4, 6, 8, 10] 48000 16000 (by decide)
  simpa using h

/-! ## Speech gate (`VoiceActivityDetector.contains_speech`)

The external Silero capability is embedded as
`Option (List ℚ → Except String ℚ)`: `none` models a capability that failed to
load (`self._model is None` after `_load_model`), and `some score` models a
loaded model whose forward call on one 512-sample window either raises
(`Except.error`) or returns a confidence (`Except.ok`).

The scan loop of `contains_speech` is

    window_size = 512
    for i in range(0, len(tensor) - window_size, window_size):
        window = tensor[i : i + window_size]
        confidence = self._model(window, self.sample_rate).item()
        if confidence > self.threshold:
            return True
    return False

wrapped in `try/except` returning `True` on any error, with an early
`return True` when the model is unavailable.
-/

/-- The fixed sub-window size of `contains_speech` (`window_size = 512`). -/
def windowSize : ℕ := 512

/-- The window start offsets visited by
`range(0, len(tensor) - window_size, window_size)`.  Python `range(0, stop, s)`
has `⌈stop / s⌉` elements for positive `stop` and is empty otherwise; truncated
natural subtraction reproduces the empty range for `len ≤ 512`. -/
def scanOffsets (len : ℕ) : List ℕ :=
  (List.range ((len - windowSize + (windowSize - 1)) / windowSize)).map (· * windowSize)

/-- The `for` loop of `contains_speech` over the scanned offsets: an
above-threshold confidence returns `true` at once, an exception from the model
is caught by the surrounding `try/except` and yields `true`, and exhausting the
loop yields `false`. -/
def scanWindows (score : List ℚ → Except String ℚ) (threshold : ℚ) (audio : List ℚ) :
    List ℕ → Bool
  | [] => false
  | i :: rest =>
    match score ((audio.drop i).take windowSize) with
    | .error _ => true
    | .ok c => if threshold < c then true else scanWindows score threshold audio rest

/-- `VoiceActivityDetector.contains_speech`: fail-open `true` when the model is
unavailable, otherwise scan the chunk in 512-sample sub-windows. -/
def containsSpeech (model : Option (List ℚ → Except String ℚ)) (threshold : ℚ)
    (audio : List ℚ) : Bool :=
  match model with
  | none => true
  | some score => scanWindows score threshold audio (scanOffsets audio.length)

theorem scanWindows_error_after_low (score : List ℚ → Except String ℚ) (threshold : ℚ)
    (audio : List ℚ) (i : ℕ) (msg : String) :
    ∀ l1 l2 : List ℕ,
      (∀ j ∈ l1, ∃ c, score ((audio.drop j).take windowSize) = .ok c ∧ c ≤ threshold) →
      score ((audio.drop i).take windowSize) = .error msg →
      scanWindows score threshold audio (l1 ++ i :: l2) = true := by
  intro l1
  induction l1 with
  | nil =>
    intro l2 _ herr
    simp only [List.nil_append, scanWindows, herr]
  | cons j l1 ih =>
    intro l2 hlow herr
    obtain ⟨c, hok, hle⟩ := hlow j (List.mem_cons_self j l1)
    simp only [List.cons_append, scanWindows, hok, if_neg (not_lt.mpr hle)]
    exact ih l2 (fun x hx => hlow x (List.mem_cons_of_mem j hx)) herr

theorem scanWindows_all_low (score : List ℚ → Except String ℚ) (threshold : ℚ)
    (audio : List ℚ) :
    ∀ l : List ℕ,
      (∀ j ∈ l, ∃ c, score ((audio.drop j).take windowSize) = .ok c ∧ c ≤ threshold) →
      scanWindows score threshold audio l = false := by
  intro l
  induction l with
  | nil => intro _; rfl
  | cons j l ih =>
    intro hlow
    obtain ⟨c, hok, hle⟩ := hlow j (List.mem_cons_self j l)
    simp only [scanWindows, hok, if_neg (not_lt.mpr hle)]
    exact ih fun x hx => hlow x (List.mem_cons_of_mem j hx)

theorem scanWindows_pure_iff (conf : List ℚ → ℚ) (threshold : ℚ) (audio : List ℚ) :
    ∀ l : List ℕ,
      scanWindows (fun w => .ok (conf w)) threshold audio l = true ↔
        ∃ i ∈ l, threshold < conf ((audio.drop i).take windowSize) := by
  intro l
  induction l with
  | nil => simp [scanWindows]
  | cons j l ih =>
    by_cases hj : threshold < conf ((audio.drop j).take windowSize)
    · simp [scanWindows, if_pos hj]
      exact Or.inl hj
    · simp only [scanWindows, if_neg hj, ih, List.mem_cons]
      constructor
      · rintro ⟨i, hi, hlt⟩; exact ⟨i, Or.inr hi, hlt⟩
      · rintro ⟨i, hi | hi, hlt⟩
        · subst hi; exact absurd hlt hj
        · exact ⟨i, hi, hlt⟩

/-- Claim C3, amended: when the capability is available and never raises,
`contains_speech` returns true iff some sub-window at a scanned offset
(`0, 512, 1024, …`, strictly below `len − 512`) has confidence strictly above
the threshold.  The scan does not cover the whole chunk: the trailing partial
window is never scored and, when the chunk length is an exact multiple of 512,
the final full window is skipped as well. -/
theorem vad_true_iff_scanned_window_above_threshold (conf : List ℚ → ℚ) (threshold : ℚ)
    (audio : List ℚ) :
    containsSpeech (some fun w => .ok (conf w)) threshold audio = true ↔
      ∃ i ∈ scanOffsets audio.length,
        threshold < conf ((audio.drop i).take windowSize) := by
  exact scanWindows_pure_iff conf threshold audio (scanOffsets audio.length)

/-- Concrete audio chunk refuting claim C3 as stated: 512 zero samples followed
by 512 one-valued samples. -/
def c3audio : List ℚ := List.replicate 512 0 ++ List.replicate 512 1

/-- Scoring capability for the C3 counterexample: confidence is the first
sample of the window, and the call never raises. -/
def c3score (w : List ℚ) : Except String ℚ := .ok (w.headD 0)

/-- Claim C3, counterexample: on a 1024-sample chunk whose only above-threshold
512-sample sub-window is the second half, `contains_speech` scans only offset 0
(`range(0, 1024 - 512, 512) = [0]`) and returns false, although a sub-window
inside the chunk scores above the threshold — the claim "a chunk whose only
above-threshold sub-window lies anywhere in the chunk is accepted" fails. -/
theorem vad_misses_final_window_counterexample :
    containsSpeech (some c3score) 0 c3audio = false ∧
      scanOffsets c3audio.length = [0] ∧
      (c3audio.drop 512).take windowSize = List.replicate 512 1 ∧
      c3score ((c3audio.drop 512).take windowSize) = .ok 1 ∧ (0 : ℚ) < 1 := by
  refine ⟨by decide, by decide, by decide, rfl, by decide⟩

/-- Claim C4: the speech gate fails open — when the capability is unavailable
it accepts every chunk, and when a scored sub-window raises (after any earlier
sub-windows scored at or below the threshold) the `except` handler also accepts
the chunk; when the capability is available and every scored sub-window stays
at or below the threshold, the chunk is rejected. -/
theorem vad_fails_open_and_rejects_silence :
    (∀ (threshold : ℚ) (audio : List ℚ), containsSpeech none threshold audio = true) ∧
      (∀ (score : List ℚ → Except String ℚ) (threshold : ℚ) (audio : List ℚ)
        (l1 l2 : List ℕ) (i : ℕ) (msg : String),
        scanOffsets audio.length = l1 ++ i :: l2 →
        (∀ j ∈ l1, ∃ c, score ((audio.drop j).take windowSize) = .ok c ∧ c ≤ threshold) →
        score ((audio.drop i).take windowSize) = .error msg →
        containsSpeech (some score) threshold audio = true) ∧
      (∀ (score : List ℚ → Except String ℚ) (threshold : ℚ) (audio : List ℚ),
        (∀ j ∈ scanOffsets audio.length,
          ∃ c, score ((audio.drop j).take windowSize) = .ok c ∧ c ≤ threshold) →
        containsSpeech (some score) threshold audio = false) := by
  refine ⟨fun _ _ => rfl, ?_, ?_⟩
  · intro score threshold audio l1 l2 i msg hsplit hlow herr
    show scanWindows score threshold audio (scanOffsets audio.length) = true
    rw [hsplit]
    exact scanWindows_error_after_low score threshold audio i msg l1 l2 hlow herr
  · intro score threshold audio hlow
    exact scanWindows_all_low score threshold audio (scanOffsets audio.length) hlow

/-- Witness for C4 at concrete inputs: an unavailable capability accepts an
all-zero chunk, a capability that raises on the first scanned window accepts
it, and an available capability scoring every window at 0 (at or below the
threshold 0) rejects the all-zero chunk. -/
theorem vad_fails_open_and_rejects_silence_witness :
    containsSpeech none 0 (List.replicate 1024 (0 : ℚ)) = true ∧
      containsSpeech (some fun _ => .error "boom") 0 (List.replicate 1024 (0 : ℚ)) = true ∧
      containsSpeech (some fun _ => .ok 0) 0 (List.replicate 1024 (0 : ℚ)) = false := by
  refine ⟨vad_fails_open_and_rejects_silence.1 0 _, ?_, ?_⟩
  · exact vad_fails_open_and_rejects_silence.2.1 (fun _ => .error "boom") 0
      (List.replicate 1024 (0 : ℚ)) [] [] 0 "boom" (by decide)
      (by intro j hj; simp at hj) rfl
  · exact vad_fails_open_and_rejects_silence.2.2 (fun _ => .ok 0) 0
      (List.replicate 1024 (0 : ℚ)) (by intro j hj; exact ⟨0, rfl, le_refl 0⟩)

/-! ## Transcription engine (`TranscriptionEngine`)

`EngineState` embeds the mutable fields `self.device`, `self.compute_type` and
`self._model` of `TranscriptionEngine`; the loaded model is represented by the
device it was constructed for (`model = some d` ↔ `self._model is not None`).
`CallEnv` supplies the behaviour of the external collaborators during one
`transcribe_chunk` call: the VAD capability, whether `WhisperModel(...)`
construction succeeds on each device, and the outcome of
`self._model.transcribe` (fragments, or a raised exception message).
-/

/-- Python `str.strip()` default whitespace on ASCII text (space, tab, newline,
carriage return, vertical tab, form feed; further Unicode whitespace is outside
the embedded character set used here). -/
def isPyWhitespace (c : Char) : Bool :=
  c = ' ' || c = '\t' || c = '\n' || c = '\r' || c = '\x0b' || c = '\x0c'

/-- Strip leading and trailing whitespace from a character list. -/
def stripList (l : List Char) : List Char :=
  ((l.dropWhile isPyWhitespace).reverse.dropWhile isPyWhitespace).reverse

/-- Python `str.strip()`. -/
def pyStrip (s : String) : String :=
  ⟨stripList s.toList⟩

/-- The two compute backends of the engine (`self.device`). -/
inductive Device
  | cuda
  | cpu
deriving DecidableEq

/-- The mutable backend state of `TranscriptionEngine`. -/
structure EngineState where
  device : Device
  computeType : String
  model : Option Device
deriving DecidableEq

/-- One `AudioChunk` as consumed by `transcribe_chunk` (`source`, `data`,
`timestamp`). -/
structure AudioChunk where
  source : String
  data : List ℚ
  timestamp : ℚ

/-- One `TranscriptSegment` as produced by `transcribe_chunk`. -/
structure TranscriptSegment where
  speaker : String
  text : String
  timestamp : ℚ
  duration : ℚ
deriving DecidableEq

/-- Behaviour of the external collaborators during one `transcribe_chunk`
call. -/
structure CallEnv where
  vadModel : Option (List ℚ → Except String ℚ)
  loadOk : Device → Bool
  response : Except String (List String)

/-- Outcome of one `transcribe_chunk` call: returned value, engine state after
the call, and which backend (if any) the inference call was issued to. -/
structure CallResult where
  result : Option TranscriptSegment
  state : EngineState
  invoked : Option Device

/-- Characters of a string lowered as by Python `str.lower()` (ASCII range). -/
def lowerChars (s : String) : List Char :=
  s.toList.map Char.toLower

/-- Whether the first list is a prefix of the second. -/
def isPrefixList : List Char → List Char → Bool
  | [], _ => true
  | _ :: _, [] => false
  | p :: ps, c :: cs => p = c && isPrefixList ps cs

/-- Python substring membership `pat in l` on character lists. -/
def containsList (pat : List Char) : List Char → Bool
  | [] => isPrefixList pat []
  | c :: cs => isPrefixList pat (c :: cs) || containsList pat cs

/-- The backend-fault test of `transcribe_chunk`:
`"cublas" in error_msg.lower() or "cuda" in error_msg.lower()`. -/
def isBackendFault (msg : String) : Bool :=
  containsList "cublas".toList (lowerChars msg) || containsList "cuda".toList (lowerChars msg)

/-- `TranscriptionEngine._fallback_to_cpu`: set `device = "cpu"`,
`compute_type = "int8"`, drop the current model, and try to construct the CPU
model (leaving `model = none` when that also fails). -/
def fallbackToCpu (env : CallEnv) (st : EngineState) : EngineState :=
  let st1 : EngineState := { st with device := Device.cpu, computeType := "int8", model := none }
  if env.loadOk Device.cpu then { st1 with model := some Device.cpu } else st1

/-- `TranscriptionEngine.load_model`: return immediately when a model is
loaded; otherwise construct a model for the current device, falling back to
CPU when construction fails and the current device is `"cuda"`. -/
def loadModel (env : CallEnv) (st : EngineState) : EngineState :=
  match st.model with
  | some _ => st
  | none =>
    if env.loadOk st.device then { st with model := some st.device }
    else if st.device = Device.cuda then fallbackToCpu env st
    else st

/-- `TranscriptionEngine.transcribe_chunk`: VAD gate, lazy model load, locked
inference call, fragment trimming and joining, and the `except` handler that
returns `None` and falls back to CPU on a backend-fault message.  The
embedding is a total function: no exception escapes. -/
def transcribeChunk (sampleRate : ℕ) (threshold : ℚ) (env : CallEnv) (st : EngineState)
    (chunk : AudioChunk) : CallResult :=
  if containsSpeech env.vadModel threshold chunk.data then
    let st1 := loadModel env st
    match st1.model with
    | none => ⟨none, st1, none⟩
    | some backend =>
      match env.response with
      | .error msg =>
        if isBackendFault msg then ⟨none, fallbackToCpu env st1, some backend⟩
        else ⟨none, st1, some backend⟩
      | .ok frags =>
        let texts := (frags.map pyStrip).filter fun t => t != ""
        if texts = [] then ⟨none, st1, some backend⟩
        else
          ⟨some { speaker := chunk.source
                  text := String.intercalate " " texts
                  timestamp := chunk.timestamp
                  duration := (chunk.data.length : ℚ) / (sampleRate : ℚ) },
            st1, some backend⟩
  else
    ⟨none, st, none⟩

/-- Run a sequence of `transcribe_chunk` calls, threading the engine state and
recording which backend each call invoked. -/
def runCalls (sampleRate : ℕ) (threshold : ℚ) :
    EngineState → List (CallEnv × AudioChunk) → List (Option Device)
  | _, [] => []
  | st, (env, c) :: rest =>
    let r := transcribeChunk sampleRate threshold env st c
    r.invoked :: runCalls sampleRate threshold r.state rest

/-- After the one-way fallback: the engine is pinned to the CPU backend and any
loaded model is the CPU model. -/
def FallbackInv (st : EngineState) : Prop :=
  st.device = Device.cpu ∧ (st.model = none ∨ st.model = some Device.cpu)

theorem fallbackToCpu_inv (env : CallEnv) (st : EngineState) :
    FallbackInv (fallbackToCpu env st) := by
  unfold fallbackToCpu FallbackInv
  by_cases h : env.loadOk Device.cpu <;> simp [h]

theorem loadModel_of_some (env : CallEnv) (st : EngineState) (d : Device)
    (h : st.model = some d) : loadModel env st = st := by
  unfold loadModel
  rw [h]

theorem loadModel_inv (env : CallEnv) (st : EngineState) (h : FallbackInv st) :
    FallbackInv (loadModel env st) := by
  rcases h with ⟨hdev, hm⟩
  rcases hm with hm | hm
  · unfold loadModel
    rw [hm, hdev]
    by_cases hl : env.loadOk Device.cpu
    · rw [if_pos hl]
      exact ⟨rfl, Or.inr rfl⟩
    · rw [if_neg hl, if_neg (by decide : ¬(Device.cpu = Device.cuda))]
      exact ⟨hdev, Or.inl hm⟩
  · rw [loadModel_of_some env st Device.cpu hm]
    exact ⟨hdev, Or.inr hm⟩

theorem transcribeChunk_inv (sampleRate : ℕ) (threshold : ℚ) (env : CallEnv)
    (st : EngineState) (chunk : AudioChunk) (h : FallbackInv st) :
    FallbackInv (transcribeChunk sampleRate threshold env st chunk).state ∧
      ((transcribeChunk sampleRate threshold env st chunk).invoked = none ∨
        (transcribeChunk sampleRate threshold env st chunk).invoked = some Device.cpu) := by
  unfold transcribeChunk
  by_cases hvad : containsSpeech env.vadModel threshold chunk.data
  · simp only [hvad, if_true]
    have hinv1 := loadModel_inv env st h
    rcases hm : (loadModel env st).model with _ | backend
    · simp only [hm]
      exact ⟨hinv1, by simp⟩
    · have hb : backend = Device.cpu := by
        rcases hinv1.2 with h2 | h2
        · rw [hm] at h2; exact absurd h2 (by simp)
        · rw [hm] at h2; exact Option.some.inj h2
      rcases hresp : env.response with msg | frags
      · by_cases hf : isBackendFault msg
        · simp [hm, hresp, hf, hb, fallbackToCpu_inv]
        · simp [hm, hresp, hf, hb, hinv1]
      · by_cases ht : (frags.map pyStrip).filter (fun t => t != "") = []
        · simp [hm, hresp, ht, hb, hinv1]
        · simp [hm, hresp, ht, hb, hinv1]
  · simp only [hvad, if_false]
    exact ⟨h, Or.inl rfl⟩

theorem runCalls_fallback (sampleRate : ℕ) (threshold : ℚ) :
    ∀ (calls : List (CallEnv × AudioChunk)) (st : EngineState), FallbackInv st →
      ∀ d ∈ runCalls sampleRate threshold st calls, d = none ∨ d = some Device.cpu := by
  intro calls
  induction calls with
  | nil => intro st _ d hd; simp [runCalls] at hd
  | cons p rest ih =>
    intro st hst d hd
    obtain ⟨env, c⟩ := p
    simp only [runCalls, List.mem_cons] at hd
    have hinv := transcribeChunk_inv sampleRate threshold env st c hst
    rcases hd with hd | hd
    · subst hd; exact hinv.2
    · exact ih _ hinv.1 d hd

/-- Claim C1: when the loaded primary (CUDA) backend raises an exception whose
message indicates a compute-backend fault, `transcribe_chunk` catches it and
returns `None` for that chunk, transitions one-way to the CPU backend, and no
subsequent call ever invokes the CUDA backend again — every later inference
call (if any) goes to the CPU backend.  The embedding is a total function, so
no exception escapes `transcribe_chunk`. -/
theorem transcribe_backend_fault_one_way_cpu_fallback (sampleRate : ℕ) (threshold : ℚ)
    (env : CallEnv) (st : EngineState) (chunk : AudioChunk) (msg : String)
    (hvad : containsSpeech env.vadModel threshold chunk.data = true)
    (hloaded : st.model = some Device.cuda)
    (hresp : env.response = .error msg)
    (hfault : isBackendFault msg = true) :
    (transcribeChunk sampleRate threshold env st chunk).result = none ∧
      (transcribeChunk sampleRate threshold env st chunk).state.device = Device.cpu ∧
      (transcribeChunk sampleRate threshold env st chunk).state.model ≠ some Device.cuda ∧
      ∀ (calls : List (CallEnv × AudioChunk)) (d : Option Device),
        d ∈ runCalls sampleRate threshold
          (transcribeChunk sampleRate threshold env st chunk).state calls →
        d = none ∨ d = some Device.cpu := by
  have hstep : transcribeChunk sampleRate threshold env st chunk
      = ⟨none, fallbackToCpu env st, some Device.cuda⟩ := by
    unfold transcribeChunk
    rw [loadModel_of_some env st Device.cuda hloaded]
    simp [hvad, hloaded, hresp, hfault]
  have hinv := fallbackToCpu_inv env st
  rw [hstep]
  refine ⟨rfl, hinv.1, ?_, ?_⟩
  · rcases hinv.2 with h2 | h2 <;> simp [h2]
  · intro calls d hd
    exact runCalls_fallback sampleRate threshold calls _ hinv d hd

/-- Engine state for the C1 and C7 witnesses: primary CUDA model loaded. -/
def cudaLoadedState : EngineState :=
  { device := Device.cuda, computeType := "float16", model := some Device.cuda }

/-- Call environment for the C1 witness: VAD unavailable (fail-open), loading
succeeds on both devices, and the inference call raises a CUDA error. -/
def c1env : CallEnv :=
  { vadModel := none, loadOk := fun _ => true, response := .error "cuda error: device lost" }

/-- Witness for C1 at a concrete input. -/
theorem transcribe_backend_fault_one_way_cpu_fallback_witness :
    (transcribeChunk 16000 0 c1env cudaLoadedState ⟨"you", [], 0⟩).result = none ∧
      (transcribeChunk 16000 0 c1env cudaLoadedState ⟨"you", [], 0⟩).state.device = Device.cpu ∧
      some Device.cuda ∉ runCalls 16000 0
        (transcribeChunk 16000 0 c1env cudaLoadedState ⟨"you", [], 0⟩).state
        [(c1env, ⟨"you", [], 0⟩)] := by
  have h := transcribe_backend_fault_one_way_cpu_fallback 16000 0 c1env cudaLoadedState
    ⟨"you", [], 0⟩ "cuda error: device lost" rfl rfl rfl (by decide)
  refine ⟨h.1, h.2.1, ?_⟩
  intro hmem
  rcases h.2.2.2 [(c1env, ⟨"you", [], 0⟩)] (some Device.cuda) hmem with h' | h' <;> cases h'

/-- Claim C7: on a chunk for which the external capability returns fragments,
the produced segment text is the whitespace-trimmed non-empty fragments joined
by single spaces, and when no non-empty fragment remains the call returns
`None` instead of a segment. -/
theorem transcribe_joins_trimmed_fragments (sampleRate : ℕ) (threshold : ℚ)
    (env : CallEnv) (st : EngineState) (chunk : AudioChunk) (frags : List String) (b : Device)
    (hvad : containsSpeech env.vadModel threshold chunk.data = true)
    (hm : st.model = some b)
    (hresp : env.response = .ok frags) :
    ((frags.map pyStrip).filter (fun t => t != "") = [] →
      (transcribeChunk sampleRate threshold env st chunk).result = none) ∧
      ((frags.map pyStrip).filter (fun t => t != "") ≠ [] →
        (transcribeChunk sampleRate threshold env st chunk).result
          = some { speaker := chunk.source
                   text := String.intercalate " " ((frags.map pyStrip).filter fun t => t != "")
                   timestamp := chunk.timestamp
                   duration := (chunk.data.length : ℚ) / (sampleRate : ℚ) }) := by
  constructor
  · intro ht
    unfold transcribeChunk
    rw [loadModel_of_some env st b hm]
    simp [hvad, hm, hresp, ht]
  · intro ht
    unfold transcribeChunk
    rw [loadModel_of_some env st b hm]
    simp [hvad, hm, hresp, ht]

/-- Call environment for the C7 witness: the capability returns the fragments
`["Hello", "", "world"]` of the specification example. -/
def c7env : CallEnv :=
  { vadModel := none, loadOk := fun _ => true, response := .ok ["Hello", "", "world"] }

/-- Witness for C7 at the specification example: the segment text is exactly
`"Hello world"`. -/
theorem transcribe_joins_trimmed_fragments_witness :
    (transcribeChunk 16000 0 c7env cudaLoadedState ⟨"you", [], 0⟩).result
      = some { speaker := "you", text := "Hello world", timestamp := 0, duration := 0 } := by
  have h := (transcribe_joins_trimmed_fragments 16000 0 c7env cudaLoadedState
    ⟨"you", [], 0⟩ ["Hello", "", "world"] Device.cuda rfl rfl rfl).2 (by decide)
  rw [h]
  norm_num
  decide

/-! ## Exclusive access to the inference call (`self._lock`)

`transcribe_chunk` wraps the external inference call in `with self._lock:`.
The interleaving of `n` caller threads around that region is embedded as a
small-step relation: each thread is about to enter the `with` block
(`beforeLock`), executing `self._model.transcribe` inside it (`inCall`), or
past the block (`released`).  `threading.Lock` semantics: acquisition succeeds
only when no thread holds the lock, and only the holder exits the block. -/

/-- Program counter of one caller thread of `transcribe_chunk` relative to the
`with self._lock:` region. -/
inductive LockPC
  | beforeLock
  | inCall
  | released
deriving DecidableEq

/-- Global state of `n` caller threads sharing the engine lock. -/
structure LockState (n : ℕ) where
  holder : Option (Fin n)
  pc : Fin n → LockPC

/-- Initial state: the lock is free and every caller is about to enter the
exclusive region. -/
def lockInit (n : ℕ) : LockState n :=
  { holder := none, pc := fun _ => LockPC.beforeLock }

/-- One interleaving step: a thread acquires the free lock and starts its
inference call, or the holding thread finishes its call and releases. -/
inductive LockStep {n : ℕ} : LockState n → LockState n → Prop
  | acquire (s : LockState n) (t : Fin n) :
      s.pc t = LockPC.beforeLock → s.holder = none →
      LockStep s ⟨some t, Function.update s.pc t LockPC.inCall⟩
  | release (s : LockState n) (t : Fin n) :
      s.pc t = LockPC.inCall → s.holder = some t →
      LockStep s ⟨none, Function.update s.pc t LockPC.released⟩

/-- Any thread executing the inference call holds the lock. -/
def HolderInv {n : ℕ} (s : LockState n) : Prop :=
  ∀ t : Fin n, s.pc t = LockPC.inCall → s.holder = some t

theorem holderInv_init (n : ℕ) : HolderInv (lockInit n) := by
  intro t ht
  simp [lockInit] at ht

theorem holderInv_step {n : ℕ} {s s' : LockState n} (h : HolderInv s) (hs : LockStep s s') :
    HolderInv s' := by
  cases hs with
  | acquire t hpc hfree =>
    intro u hu
    by_cases hut : u = t
    · subst hut; rfl
    · rw [show (⟨some t, Function.update s.pc t LockPC.inCall⟩ : LockState n).pc u
          = Function.update s.pc t LockPC.inCall u from rfl,
        Function.update_noteq hut] at hu
      exact absurd (h u hu) (by rw [hfree]; simp)
  | release t hpc hold =>
    intro u hu
    by_cases hut : u = t
    · subst hut
      rw [show (⟨none, Function.update s.pc u LockPC.released⟩ : LockState n).pc u
          = Function.update s.pc u LockPC.released u from rfl,
        Function.update_same] at hu
      cases hu
    · rw [show (⟨none, Function.update s.pc t LockPC.released⟩ : LockState n).pc u
          = Function.update s.pc t LockPC.released u from rfl,
        Function.update_noteq hut] at hu
      have h1 := h u hu
      rw [hold] at h1
      exact absurd (Option.some.inj h1).symm hut

theorem holderInv_reachable {n : ℕ} (s : LockState n)
    (h : Relation.ReflTransGen LockStep (lockInit n) s) : HolderInv s := by
  induction h with
  | refl => exact holderInv_init n
  | tail _ hstep ih => exact holderInv_step ih hstep

/-- Claim C9: in every state reachable from the initial state, at most one
thread is executing the external inference call — the call-count high-water
mark of the `with self._lock:` region is 1, however many chunks are queued. -/
theorem lock_at_most_one_inference_call {n : ℕ} (s : LockState n)
    (h : Relation.ReflTransGen LockStep (lockInit n) s)
    (t1 t2 : Fin n) (h1 : s.pc t1 = LockPC.inCall) (h2 : s.pc t2 = LockPC.inCall) :
    t1 = t2 := by
  have hinv := holderInv_reachable s h
  have e1 := hinv t1 h1
  have e2 := hinv t2 h2
  rw [e1] at e2
  exact Option.some.inj e2

/-- A concrete reachable state for the C9 witness: thread 0 of 2 holds the
lock and is inside the inference call. -/
def lockOneInCall : LockState 2 :=
  ⟨some 0, Function.update (fun _ => LockPC.beforeLock) 0 LockPC.inCall⟩

/-- Witness for C9 at a concrete reachable state. -/
theorem lock_at_most_one_inference_call_witness : (0 : Fin 2) = 0 := by
  have hreach : Relation.ReflTransGen LockStep (lockInit 2) lockOneInCall :=
    Relation.ReflTransGen.single (LockStep.acquire (lockInit 2) 0 rfl rfl)
  exact lock_at_most_one_inference_call lockOneInCall hreach 0 0
    (by simp [lockOneInCall]) (by simp [lockOneInCall])

/-! ## Session manager and transcript log (`SessionManager`)

`add_transcript` appends `{"speaker", "text", "timestamp"}` to the in-memory
list and, when a session is active, writes
`json.dumps(entry, ensure_ascii=False) + "\n"` to the session's
`transcript.jsonl` and refreshes the metadata timestamp; `_load_transcript`
reads the file line by line, strips each line and parses the non-empty ones
with `json.loads`.

`json.dumps(..., ensure_ascii=False)` on this record shape emits the keys in
insertion order with `", "` and `": "` separators and escapes exactly `"` ,
`\` and the control characters below 0x20 inside strings (`\b \t \n \f \r` as
short escapes, the rest as `\u00xx`); everything else is copied verbatim.
`escapeChar`/`parseJsonStringAux` embed that string escape and its inverse,
and `parseEntry` embeds `json.loads` on the record shape this writer
produces.  Timestamps (floats in the source, serialized via `repr` and parsed
back exactly by `json.loads`) are embedded as natural numbers in decimal.
Since the serialized record never contains a newline, the log file is
embedded line by line as `List (List Char)`.
-/

/-- Lowercase hex digit character, as used by the `\u00xx` escapes of
`json.dumps`. -/
def hexDigit (n : ℕ) : Char :=
  if n < 10 then Char.ofNat (48 + n) else Char.ofNat (87 + n)

/-- Decimal digit character. -/
def digitChar (d : ℕ) : Char :=
  Char.ofNat (48 + d)

/-- JSON string escape of one character, per `json.dumps` with
`ensure_ascii=False`. -/
def escapeChar (c : Char) : List Char :=
  if c = '"' then ['\\', '"']
  else if c = '\\' then ['\\', '\\']
  else if c = '\n' then ['\\', 'n']
  else if c = '\r' then ['\\', 'r']
  else if c = '\t' then ['\\', 't']
  else if c = '\x08' then ['\\', 'b']
  else if c = '\x0c' then ['\\', 'f']
  else if c.toNat < 32 then
    ['\\', 'u', '0', '0', hexDigit (c.toNat / 16), hexDigit (c.toNat % 16)]
  else [c]

/-- JSON string escape of a whole string body. -/
def escapeList (l : List Char) : List Char :=
  l.flatMap escapeChar

/-- Little-endian base-10 digits of `n`, with explicit fuel (`n` itself is
always enough fuel). -/
def natDigitsAux : ℕ → ℕ → List ℕ
  | 0, _ => []
  | _ + 1, 0 => []
  | fuel + 1, n + 1 => ((n + 1) % 10) :: natDigitsAux fuel ((n + 1) / 10)

/-- Decimal digit characters of a natural number, most significant first. -/
def natToChars (n : ℕ) : List Char :=
  if n = 0 then ['0'] else ((natDigitsAux n n).map digitChar).reverse

/-- Fixed leading text of the serialized record, through the opening quote of
the `speaker` value. -/
def lit1 : List Char :=
  '\x7b' :: "\"speaker\": \"".toList

/-- Fixed text between the `speaker` value and the `text` value. -/
def lit2 : List Char :=
  ", \"text\": \"".toList

/-- Fixed text between the `text` value and the `timestamp` value. -/
def lit3 : List Char :=
  ", \"timestamp\": ".toList

/-- One transcript-log record, as built by `add_transcript`. -/
structure Entry where
  speaker : String
  text : String
  timestamp : ℕ

/-- `json.dumps(entry, ensure_ascii=False)` for one transcript record. -/
def serializeEntry (e : Entry) : List Char :=
  lit1 ++ (escapeList e.speaker.toList ++ ('"' :: (lit2 ++ (escapeList e.text.toList ++
    ('"' :: (lit3 ++ (natToChars e.timestamp ++ ['\x7d'])))))))

/-- Value of one hex digit character, as accepted by `json.loads` `\uXXXX`
escapes. -/
def hexVal (c : Char) : Option ℕ :=
  if 48 ≤ c.toNat ∧ c.toNat ≤ 57 then some (c.toNat - 48)
  else if 97 ≤ c.toNat ∧ c.toNat ≤ 102 then some (c.toNat - 87)
  else if 65 ≤ c.toNat ∧ c.toNat ≤ 70 then some (c.toNat - 55)
  else none

/-- JSON string body parser: consumes characters (undoing the escapes written
by `escapeChar`) up to and including the closing unescaped quote, returning
the decoded body and the remaining input. -/
def parseJsonStringAux : List Char → Option (List Char × List Char)
  | [] => none
  | c :: rest =>
    if c = '"' then some ([], rest)
    else if c = '\\' then
      match rest with
      | [] => none
      | e :: r =>
        if e = '"' then (fun p => ('"' :: p.1, p.2)) <$> parseJsonStringAux r
        else if e = '\\' then (fun p => ('\\' :: p.1, p.2)) <$> parseJsonStringAux r
        else if e = 'n' then (fun p => ('\n' :: p.1, p.2)) <$> parseJsonStringAux r
        else if e = 'r' then (fun p => ('\r' :: p.1, p.2)) <$> parseJsonStringAux r
        else if e = 't' then (fun p => ('\t' :: p.1, p.2)) <$> parseJsonStringAux r
        else if e = 'b' then (fun p => ('\x08' :: p.1, p.2)) <$> parseJsonStringAux r
        else if e = 'f' then (fun p => ('\x0c' :: p.1, p.2)) <$> parseJsonStringAux r
        else if e = 'u' then
          match r with
          | h1 :: h2 :: h3 :: h4 :: r2 =>
            match hexVal h1, hexVal h2, hexVal h3, hexVal h4 with
            | some a, some b, some c2, some d =>
              (fun p => (Char.ofNat (((a * 16 + b) * 16 + c2) * 16 + d) :: p.1, p.2)) <$>
                parseJsonStringAux r2
            | _, _, _, _ => none
          | _ => none
        else none
    else (fun p => (c :: p.1, p.2)) <$> parseJsonStringAux rest

/-- Consume an expected fixed text at the front of the input. -/
def expects : List Char → List Char → Option (List Char)
  | [], s => some s
  | _ :: _, [] => none
  | p :: ps, c :: cs => if p = c then expects ps cs else none

/-- Parse a decimal natural number at the front of the input. -/
def parseNat (s : List Char) : Option (ℕ × List Char) :=
  let ds := s.takeWhile Char.isDigit
  if ds = [] then none
  else some (ds.foldl (fun a c => a * 10 + (c.toNat - 48)) 0, s.dropWhile Char.isDigit)

/-- `json.loads` on the record shape written by `add_transcript`. -/
def parseEntry (s : List Char) : Option Entry :=
  match expects lit1 s with
  | none => none
  | some s1 =>
    match parseJsonStringAux s1 with
    | none => none
    | some (sp, s2) =>
      match expects lit2 s2 with
      | none => none
      | some s3 =>
        match parseJsonStringAux s3 with
        | none => none
        | some (tx, s4) =>
          match expects lit3 s4 with
          | none => none
          | some s5 =>
            match parseNat s5 with
            | none => none
            | some (n, s6) => if s6 = ['\x7d'] then some ⟨⟨sp⟩, ⟨tx⟩, n⟩ else none

/-- `SessionManager._load_transcript`: strip each line, skip empty lines,
parse the rest; a parse failure anywhere (a raised `json.loads` error)
fails the whole load. -/
def loadLines : List (List Char) → Option (List Entry)
  | [] => some []
  | l :: ls =>
    if stripList l = [] then loadLines ls
    else
      match parseEntry (stripList l), loadLines ls with
      | some e, some es => some (e :: es)
      | _, _ => none

theorem hexVal_hexDigit (n : ℕ) (h : n < 16) : hexVal (hexDigit n) = some n := by
  interval_cases n <;> decide

theorem parse_u_escape (hi lo : ℕ) (hhi : hi < 16) (hlo : lo < 16) (X : List Char) :
    parseJsonStringAux ('\\' :: 'u' :: '0' :: '0' :: hexDigit hi :: hexDigit lo :: X)
      = (fun p : List Char × List Char => (Char.ofNat (hi * 16 + lo) :: p.1, p.2)) <$>
        parseJsonStringAux X := by
  rw [parseJsonStringAux.eq_def]
  have e0 : hexVal '0' = some 0 := by decide
  simp [e0, hexVal_hexDigit hi hhi, hexVal_hexDigit lo hlo]

theorem parseJsonStringAux_escape (s : List Char) :
    ∀ r : List Char, parseJsonStringAux (escapeList s ++ '"' :: r) = some (s, r) := by
  induction s with
  | nil =>
    intro r
    simp only [escapeList, List.nil_flatMap, List.nil_append]
    rw [parseJsonStringAux.eq_def]
    simp
  | cons c cs ih =>
    intro r
    have hstep : escapeList (c :: cs) ++ '"' :: r
        = escapeChar c ++ (escapeList cs ++ '"' :: r) := by
      simp [escapeList, List.append_assoc]
    rw [hstep]
    unfold escapeChar
    split_ifs with h1 h2 h3 h4 h5 h6 h7 h8
    · subst h1
      simp only [List.cons_append, List.nil_append]
      rw [parseJsonStringAux.eq_def]
      simp [ih r]
    · subst h2
      simp only [List.cons_append, List.nil_append]
      rw [parseJsonStringAux.eq_def]
      simp [ih r]
    · subst h3
      simp only [List.cons_append, List.nil_append]
      rw [parseJsonStringAux.eq_def]
      simp [ih r]
    · subst h4
      simp only [List.cons_append, List.nil_append]
      rw [parseJsonStringAux.eq_def]
      simp [ih r]
    · subst h5
      simp only [List.cons_append, List.nil_append]
      rw [parseJsonStringAux.eq_def]
      simp [ih r]
    · subst h6
      simp only [List.cons_append, List.nil_append]
      rw [parseJsonStringAux.eq_def]
      simp [ih r]
    · subst h7
      simp only [List.cons_append, List.nil_append]
      rw [parseJsonStringAux.eq_def]
      simp [ih r]
    · have hhi : c.toNat / 16 < 16 := by omega
      have hlo : c.toNat % 16 < 16 := Nat.mod_lt _ (by norm_num)
      simp only [List.cons_append, List.nil_append]
      rw [parse_u_escape _ _ hhi hlo, ih r]
      have harith : c.toNat / 16 * 16 + c.toNat % 16 = c.toNat := by omega
      rw [harith, Char.ofNat_toNat]
      rfl
    · simp only [List.cons_append, List.nil_append]
      rw [parseJsonStringAux.eq_def]
      simp [h1, h2, ih r]

theorem expects_self (p : List Char) : ∀ s : List Char, expects p (p ++ s) = some s := by
  induction p with
  | nil => intro s; rfl
  | cons c cs ih => intro s; simp [expects, ih]

/-- Little-endian base-10 value of a digit list. -/
def ofLE : List ℕ → ℕ
  | [] => 0
  | d :: ds => d + 10 * ofLE ds

theorem natDigitsAux_lt_ten : ∀ (fuel n : ℕ), ∀ d ∈ natDigitsAux fuel n, d < 10 := by
  intro fuel
  induction fuel with
  | zero => intro n d hd; simp [natDigitsAux] at hd
  | succ f ih =>
    intro n d hd
    match n with
    | 0 => simp [natDigitsAux] at hd
    | m + 1 =>
      simp only [natDigitsAux, List.mem_cons] at hd
      rcases hd with hd | hd
      · subst hd; exact Nat.mod_lt _ (by norm_num)
      · exact ih _ d hd

theorem natDigitsAux_ofLE : ∀ (fuel n : ℕ), n ≤ fuel → ofLE (natDigitsAux fuel n) = n := by
  intro fuel
  induction fuel with
  | zero =>
    intro n h
    have h0 : n = 0 := Nat.le_zero.mp h
    subst h0; rfl
  | succ f ih =>
    intro n h
    match n with
    | 0 => rfl
    | m + 1 =>
      have hdiv : (m + 1) / 10 ≤ f := by
        have := Nat.div_lt_self (Nat.succ_pos m) (by norm_num : 1 < 10)
        omega
      simp only [natDigitsAux, ofLE]
      rw [ih _ hdiv]
      omega

theorem digitChar_val (d : ℕ) (h : d < 10) : (digitChar d).toNat - 48 = d := by
  interval_cases d <;> decide

theorem digitChar_isDigit (d : ℕ) (h : d < 10) : (digitChar d).isDigit = true := by
  interval_cases d <;> decide

theorem foldl_digit_chars (l : List ℕ) (hl : ∀ d ∈ l, d < 10) :
    ∀ a : ℕ, ((l.map digitChar).reverse).foldl (fun acc c => acc * 10 + (c.toNat - 48)) a
      = a * 10 ^ l.length + ofLE l := by
  induction l with
  | nil => intro a; simp [ofLE]
  | cons d ds ih =>
    intro a
    rw [List.map_cons, List.reverse_cons, List.foldl_append,
      ih (fun x hx => hl x (List.mem_cons_of_mem d hx))]
    have hd : (digitChar d).toNat - 48 = d := digitChar_val d (hl d (List.mem_cons_self d ds))
    simp only [List.foldl_cons, List.foldl_nil, hd, ofLE, List.length_cons]
    ring

theorem takeWhile_append_singleton (p : Char → Bool) (l : List Char) (c : Char)
    (hl : ∀ x ∈ l, p x = true) (hc : p c = false) :
    (l ++ [c]).takeWhile p = l ∧ (l ++ [c]).dropWhile p = [c] := by
  induction l with
  | nil => simp [List.takeWhile, List.dropWhile, hc]
  | cons a t ih =>
    have ha := hl a (List.mem_cons_self a t)
    have iht := ih fun x hx => hl x (List.mem_cons_of_mem a hx)
    simp only [List.cons_append, List.takeWhile_cons, List.dropWhile_cons, ha, iht.1, iht.2]
    simp

theorem natToChars_digits (n : ℕ) : ∀ x ∈ natToChars n, x.isDigit = true := by
  unfold natToChars
  by_cases h : n = 0
  · subst h; intro x hx; simp at hx; subst hx; decide
  · simp only [if_neg h]
    intro x hx
    rw [List.mem_reverse] at hx
    obtain ⟨d, hd, rfl⟩ := List.mem_map.mp hx
    exact digitChar_isDigit d (natDigitsAux_lt_ten n n d hd)

theorem natToChars_ne_nil (n : ℕ) : natToChars n ≠ [] := by
  unfold natToChars
  by_cases h : n = 0
  · simp [h]
  · simp only [if_neg h]
    obtain ⟨m, rfl⟩ : ∃ m, n = m + 1 := ⟨n - 1, by omega⟩
    simp [natDigitsAux]

theorem parseNat_natToChars (n : ℕ) :
    parseNat (natToChars n ++ ['\x7d']) = some (n, ['\x7d']) := by
  obtain ⟨htake, hdrop⟩ := takeWhile_append_singleton Char.isDigit (natToChars n) '\x7d'
    (natToChars_digits n) (by decide)
  unfold parseNat
  simp only [htake, hdrop, if_neg (natToChars_ne_nil n)]
  congr 1
  by_cases h : n = 0
  · subst h; rfl
  · have hfold := foldl_digit_chars (natDigitsAux n n) (natDigitsAux_lt_ten n n) 0
    have hval : ofLE (natDigitsAux n n) = n := natDigitsAux_ofLE n n le_rfl
    simp only [natToChars, if_neg h]
    rw [hfold, hval]
    simp

theorem parseEntry_serializeEntry (e : Entry) : parseEntry (serializeEntry e) = some e := by
  have h1 : expects lit1 (serializeEntry e)
      = some (escapeList e.speaker.toList ++ ('"' :: (lit2 ++ (escapeList e.text.toList ++
          ('"' :: (lit3 ++ (natToChars e.timestamp ++ ['\x7d']))))))) :=
    expects_self lit1 _
  have h2 := parseJsonStringAux_escape e.speaker.toList
    (lit2 ++ (escapeList e.text.toList ++ ('"' :: (lit3 ++ (natToChars e.timestamp ++ ['\x7d'])))))
  have h3 : expects lit2 (lit2 ++ (escapeList e.text.toList ++
      ('"' :: (lit3 ++ (natToChars e.timestamp ++ ['\x7d'])))))
      = some (escapeList e.text.toList ++ ('"' :: (lit3 ++ (natToChars e.timestamp ++ ['\x7d'])))) :=
    expects_self lit2 _
  have h4 := parseJsonStringAux_escape e.text.toList (lit3 ++ (natToChars e.timestamp ++ ['\x7d']))
  have h5 : expects lit3 (lit3 ++ (natToChars e.timestamp ++ ['\x7d']))
      = some (natToChars e.timestamp ++ ['\x7d']) := expects_self lit3 _
  have h6 := parseNat_natToChars e.timestamp
  simp only [parseEntry, h1, h2, h3, h4, h5, h6, if_pos rfl]
  rfl

theorem stripList_eq_of_ends (a b : Char) (m : List Char)
    (ha : isPyWhitespace a = false) (hb : isPyWhitespace b = false) :
    stripList (a :: (m ++ [b])) = a :: (m ++ [b]) := by
  unfold stripList
  rw [List.dropWhile_cons_of_neg (by simp [ha])]
  rw [show (a :: (m ++ [b])).reverse = b :: (m.reverse ++ [a]) by simp]
  rw [List.dropWhile_cons_of_neg (by simp [hb])]
  rw [show (b :: (m.reverse ++ [a])).reverse = a :: (m ++ [b]) by simp]

theorem serializeEntry_shape (e : Entry) :
    serializeEntry e = '\x7b' :: (("\"speaker\": \"".toList
      ++ (escapeList e.speaker.toList ++ ('"' :: (lit2 ++ (escapeList e.text.toList
        ++ ('"' :: (lit3 ++ natToChars e.timestamp))))))) ++ ['\x7d']) := by
  simp [serializeEntry, lit1, List.append_assoc]

theorem stripList_serializeEntry (e : Entry) :
    stripList (serializeEntry e) = serializeEntry e := by
  rw [serializeEntry_shape e]
  exact stripList_eq_of_ends _ _ _ (by decide) (by decide)

theorem serializeEntry_ne_nil (e : Entry) : serializeEntry e ≠ [] := by
  rw [serializeEntry_shape e]
  simp

theorem loadLines_serialize (entries : List Entry) :
    loadLines (entries.map serializeEntry) = some entries := by
  induction entries with
  | nil => rfl
  | cons e es ih =>
    simp only [List.map_cons, loadLines, stripList_serializeEntry e,
      if_neg (serializeEntry_ne_nil e), parseEntry_serializeEntry e, ih]

/-! ### Session state (`SessionManager`) -/

/-- Metadata of one session (`SessionMetadata` without the device fields,
which `add_transcript` never touches). -/
structure SessionMeta where
  id : String
  name : String
  createdAt : String
  updatedAt : String

/-- Update or insert the value stored under a key. -/
def setEntry {β : Type} : List (String × β) → String → β → List (String × β)
  | [], k, v => [(k, v)]
  | (k0, v0) :: rest, k, v =>
    if k0 = k then (k, v) :: rest else (k0, v0) :: setEntry rest k v

/-- Lines of the transcript file stored under a session id (an absent file
reads as empty, matching the `log_path.exists()` guard of
`_load_transcript`). -/
def getFile (fs : List (String × List (List Char))) (k : String) : List (List Char) :=
  match fs with
  | [] => []
  | (k0, v) :: rest => if k0 = k then v else getFile rest k

/-- The mutable state of `SessionManager` touched by `add_transcript`:
the current session, the in-memory transcript list, the per-session
`transcript.jsonl` files (as lists of lines) and the per-session
`metadata.json` files. -/
structure SessionState where
  current : Option SessionMeta
  memLog : List Entry
  transcriptFiles : List (String × List (List Char))
  metaFiles : List (String × SessionMeta)

/-- `SessionManager.add_transcript`: append the entry to the in-memory log
always; when a session is active, also append one serialized record to that
session's transcript file (`_append_to_log`) and refresh the session metadata
timestamp (`_update_timestamp`, which rewrites `metadata.json`). -/
def addTranscript (now : String) (st : SessionState) (speaker text : String)
    (timestamp : ℕ) : SessionState :=
  let e : Entry := ⟨speaker, text, timestamp⟩
  match st.current with
  | none => { st with memLog := st.memLog ++ [e] }
  | some m =>
    let m2 : SessionMeta := { m with updatedAt := now }
    { current := some m2
      memLog := st.memLog ++ [e]
      transcriptFiles :=
        setEntry st.transcriptFiles m.id (getFile st.transcriptFiles m.id ++ [serializeEntry e])
      metaFiles := setEntry st.metaFiles m.id m2 }

/-- Append a list of segments through `add_transcript`, in order. -/
def addAll (now : String) : SessionState → List Entry → SessionState
  | st, [] => st
  | st, e :: es => addAll now (addTranscript now st e.speaker e.text e.timestamp) es

/-- `SessionManager._load_transcript` for one session id over the embedded
file store. -/
def loadTranscript (st : SessionState) (sessionId : String) : Option (List Entry) :=
  loadLines (getFile st.transcriptFiles sessionId)

theorem getFile_setEntry (fs : List (String × List (List Char))) (k : String)
    (v : List (List Char)) : getFile (setEntry fs k v) k = v := by
  induction fs with
  | nil => simp [setEntry, getFile]
  | cons p rest ih =>
    obtain ⟨k0, v0⟩ := p
    by_cases h : k0 = k
    · simp [setEntry, getFile, h]
    · simp only [setEntry, if_neg h, getFile, ih]

theorem addTranscript_none (now : String) (st : SessionState) (speaker text : String)
    (timestamp : ℕ) (h : st.current = none) :
    addTranscript now st speaker text timestamp
      = { st with memLog := st.memLog ++ [⟨speaker, text, timestamp⟩] } := by
  unfold addTranscript
  rw [h]

theorem addTranscript_some (now : String) (st : SessionState) (speaker text : String)
    (timestamp : ℕ) (m : SessionMeta) (h : st.current = some m) :
    addTranscript now st speaker text timestamp
      = { current := some { m with updatedAt := now }
          memLog := st.memLog ++ [⟨speaker, text, timestamp⟩]
          transcriptFiles := setEntry st.transcriptFiles m.id
            (getFile st.transcriptFiles m.id ++ [serializeEntry ⟨speaker, text, timestamp⟩])
          metaFiles := setEntry st.metaFiles m.id { m with updatedAt := now } } := by
  unfold addTranscript
  rw [h]

theorem addAll_file (now : String) :
    ∀ (entries : List Entry) (st : SessionState) (m : SessionMeta),
      st.current = some m →
      ∃ m2 : SessionMeta, (addAll now st entries).current = some m2 ∧ m2.id = m.id ∧
        getFile (addAll now st entries).transcriptFiles m.id
          = getFile st.transcriptFiles m.id ++ entries.map serializeEntry := by
  intro entries
  induction entries with
  | nil =>
    intro st m h
    refine ⟨m, h, rfl, ?_⟩
    simp [addAll]
  | cons e es ih =>
    intro st m h
    have hstep := addTranscript_some now st e.speaker e.text e.timestamp m h
    have hcur1 : (addTranscript now st e.speaker e.text e.timestamp).current
        = some { m with updatedAt := now } := by rw [hstep]
    obtain ⟨m2, hc2, hid2, hf2⟩ := ih (addTranscript now st e.speaker e.text e.timestamp)
      { m with updatedAt := now } hcur1
    refine ⟨m2, ?_, hid2, ?_⟩
    · simpa [addAll] using hc2
    · have hfile1 : getFile (addTranscript now st e.speaker e.text e.timestamp).transcriptFiles
          m.id = getFile st.transcriptFiles m.id ++ [serializeEntry e] := by
        rw [hstep]
        exact getFile_setEntry _ _ _
      have : getFile (addAll now st (e :: es)).transcriptFiles m.id
          = getFile (addTranscript now st e.speaker e.text e.timestamp).transcriptFiles m.id
            ++ es.map serializeEntry := by
        have := hf2
        simpa [addAll] using this
      rw [this, hfile1, List.map_cons, List.append_assoc]
      rfl

/-- Claim C8: writing segments to the transcript log of an active session with
an initially empty log file and then reloading that log yields exactly the
written entries, in append order, with all fields (in particular the text)
reproduced exactly. -/
theorem transcript_log_round_trip (now : String) (st : SessionState) (m : SessionMeta)
    (entries : List Entry) (hcur : st.current = some m)
    (hfile : getFile st.transcriptFiles m.id = []) :
    loadTranscript (addAll now st entries) m.id = some entries := by
  obtain ⟨m2, _, _, hf⟩ := addAll_file now entries st m hcur
  unfold loadTranscript
  rw [hf, hfile, List.nil_append, loadLines_serialize]

/-- Fresh session state for the C8 witness. -/
def c8meta : SessionMeta := ⟨"s1", "meeting", "t0", "t0"⟩

/-- Session state with an active fresh session and empty stores. -/
def c8state : SessionState := ⟨some c8meta, [], [], []⟩

/-- Witness for C8 at a concrete input: two entries, one with text
`"Hello world"`, round-trip exactly. -/
theorem transcript_log_round_trip_witness :
    loadTranscript (addAll "t1" c8state [⟨"you", "Hello world", 1⟩, ⟨"target", "ok", 2⟩]) "s1"
      = some [⟨"you", "Hello world", 1⟩, ⟨"target", "ok", 2⟩] :=
  transcript_log_round_trip "t1" c8state c8meta
    [⟨"you", "Hello world", 1⟩, ⟨"target", "ok", 2⟩] rfl rfl

/-- Claim C10: with no active session, `add_transcript` still appends the
entry to the in-memory transcript log while leaving the transcript files, the
metadata files and the current-session field unchanged; with an active
session, the call appends the entry in memory and appends exactly one
serialized record to that session's transcript file. -/
theorem add_transcript_frame (now speaker text : String) (timestamp : ℕ)
    (st : SessionState) :
    (st.current = none →
      (addTranscript now st speaker text timestamp).memLog
          = st.memLog ++ [⟨speaker, text, timestamp⟩] ∧
        (addTranscript now st speaker text timestamp).transcriptFiles = st.transcriptFiles ∧
        (addTranscript now st speaker text timestamp).metaFiles = st.metaFiles ∧
        (addTranscript now st speaker text timestamp).current = none) ∧
      (∀ m : SessionMeta, st.current = some m →
        (addTranscript now st speaker text timestamp).memLog
            = st.memLog ++ [⟨speaker, text, timestamp⟩] ∧
          getFile (addTranscript now st speaker text timestamp).transcriptFiles m.id
            = getFile st.transcriptFiles m.id ++ [serializeEntry ⟨speaker, text, timestamp⟩]) := by
  constructor
  · intro h
    rw [addTranscript_none now st speaker text timestamp h]
    exact ⟨rfl, rfl, rfl, h⟩
  · intro m h
    rw [addTranscript_some now st speaker text timestamp m h]
    exact ⟨rfl, getFile_setEntry _ _ _⟩

/-- Session state with no active session for the C10 witness. -/
def c10state : SessionState := ⟨none, [], [("s1", [])], [("s1", c8meta)]⟩

/-- Witness for C10 at concrete inputs: one call with no active session leaves
the file stores untouched, one call with an active session grows the
transcript file by one record. -/
theorem add_transcript_frame_witness :
    (addTranscript "t1" c10state "you" "hi" 5).transcriptFiles = [("s1", [])] ∧
      (addTranscript "t1" c10state "you" "hi" 5).metaFiles = [("s1", c8meta)] ∧
      (addTranscript "t1" c10state "you" "hi" 5).memLog = [⟨"you", "hi", 5⟩] ∧
      getFile (addTranscript "t1" c8state "you" "hi" 5).transcriptFiles "s1"
        = [serializeEntry ⟨"you", "hi", 5⟩] := by
  have h1 := (add_transcript_frame "t1" "you" "hi" 5 c10state).1 rfl
  have h2 := (add_transcript_frame "t1" "you" "hi" 5 c8state).2 c8meta rfl
  exact ⟨h1.2.1, h1.2.2.1, h1.1, h2.2⟩

end Alter
